import Mathlib

/-!
Sharpify — formal model of the request-orchestration layer.

Shallow embedding of the Sharpify image-processing library
(cache, fingerprint builder, pipeline composer, batch scheduler,
positioning calculator, error wrapping, metadata statistics),
together with theorems settling the specification claims.

Conventions of the embedding:
* JavaScript `Map` objects are modelled as insertion-ordered association
  lists with unique keys (`Map.set` replaces in place, otherwise appends).
* `Date.now()` is an explicit `Nat` argument threaded through the
  stateful cache operations.
* JavaScript numbers are modelled as `ℚ` (no NaN; the code under
  scrutiny performs only `+ - * /` and comparisons on them).
* JavaScript truthiness: a number is truthy iff it is nonzero, a string
  is truthy iff it is nonempty, `undefined` is falsy (`Option.none`).
* Fallible code returns `Except`.
-/

/-! ## Memoization cache (src/cache.ts)

`ImageCache` holds `Map<string, CacheEntry>` where
`CacheEntry = \x7b timestamp, result \x7d`.  The value type is abstract
(`ProcessedImage` is an abstract payload to the cache logic). -/

/-- One JS `Map` slot: key, insertion timestamp, stored payload. -/
structure CacheEntry (V : Type) where
  key : String
  timestamp : Nat
  result : V
deriving DecidableEq, Repr

/-- The `ImageCache` object: insertion-ordered entry list plus the two
constructor parameters `maxSize` (default 100) and `maxAge`
(default 3600000 ms). -/
structure ImageCache (V : Type) where
  entries : List (CacheEntry V)
  maxSize : Nat := 100
  maxAge : Nat := 3600000
deriving DecidableEq, Repr

/-- `Map.get`: first (only) entry with the given key. -/
def mapLookup {V : Type} (l : List (CacheEntry V)) (k : String) :
    Option (CacheEntry V) :=
  l.find? (fun e => e.key = k)

/-- `Map.delete`: remove the entry with the given key. -/
def mapDelete {V : Type} (l : List (CacheEntry V)) (k : String) :
    List (CacheEntry V) :=
  l.filter (fun e => ¬ e.key = k)

/-- `Map.set`: replace in place if the key exists, else append. -/
def mapSet {V : Type} (l : List (CacheEntry V)) (k : String) (ts : Nat)
    (v : V) : List (CacheEntry V) :=
  match l with
  | [] => [⟨k, ts, v⟩]
  | e :: t => if e.key = k then ⟨k, ts, v⟩ :: t else e :: mapSet t k ts v

/-- `removeOldestEntry` (cache.ts lines 64–80): scan for the entry whose
timestamp is strictly below the running minimum, which is initialised to
`Date.now()` (the `now` argument); delete it if one was found. -/
def ImageCache.removeOldestEntry {V : Type} (c : ImageCache V) (now : Nat) :
    ImageCache V :=
  let scan := c.entries.foldl
    (fun (acc : Option String × Nat) e =>
      if e.timestamp < acc.2 then (some e.key, e.timestamp) else acc)
    (none, now)
  match scan.1 with
  | none => c
  | some k => { c with entries := mapDelete c.entries k }

/-- `set` (cache.ts lines 29–39): if `size ≥ maxSize`, call
`removeOldestEntry`, then insert the new entry stamped `now`. -/
def ImageCache.set {V : Type} (c : ImageCache V) (now : Nat) (k : String)
    (v : V) : ImageCache V :=
  let c' := if c.entries.length ≥ c.maxSize then c.removeOldestEntry now else c
  { c' with entries := mapSet c'.entries k now v }

/-- `get` (cache.ts lines 47–58): miss on absent key; if
`now - timestamp > maxAge` delete the entry and miss; otherwise hit.
Returns the result together with the updated cache. -/
def ImageCache.get {V : Type} (c : ImageCache V) (now : Nat) (k : String) :
    Option V × ImageCache V :=
  match mapLookup c.entries k with
  | none => (none, c)
  | some e =>
    if now - e.timestamp > c.maxAge then
      (none, { c with entries := mapDelete c.entries k })
    else
      (some e.result, c)

/-- `clear` (cache.ts lines 85–87). -/
def ImageCache.clear {V : Type} (c : ImageCache V) : ImageCache V :=
  { c with entries := [] }

/-- Empty cache with the given configuration. -/
def ImageCache.mk' (V : Type) (maxSize maxAge : Nat) : ImageCache V :=
  { entries := [], maxSize := maxSize, maxAge := maxAge }

/-! ## Cache lemmas -/

lemma mapLookup_mapDelete_self {V : Type} (l : List (CacheEntry V))
    (k : String) : mapLookup (mapDelete l k) k = none := by
  rw [mapLookup, List.find?_eq_none]
  intro e he
  have := List.of_mem_filter he
  simpa using this

lemma mapLookup_mapDelete_ne {V : Type} (l : List (CacheEntry V))
    (k k' : String) (h : k' ≠ k) :
    mapLookup (mapDelete l k) k' = mapLookup l k' := by
  induction l with
  | nil => rfl
  | cons e t ih =>
    by_cases hk : e.key = k
    · have h1 : mapDelete (e :: t) k = mapDelete t k := by
        simp [mapDelete, List.filter_cons, hk]
      have h2 : mapLookup (e :: t) k' = mapLookup t k' := by
        have : ¬ e.key = k' := by
          intro hc; exact h (hc ▸ hk.symm ▸ rfl)
        simp [mapLookup, List.find?_cons, this]
      rw [h1, h2, ih]
    · have h1 : mapDelete (e :: t) k = e :: mapDelete t k := by
        simp [mapDelete, List.filter_cons, hk]
      by_cases hk' : e.key = k'
      · simp [h1, mapLookup, List.find?_cons, hk']
      · simp only [h1, mapLookup, List.find?_cons] at *
        simp [hk', ih]

/-- C3: TTL lazy expiry.  For every cache state holding an entry `e`
under key `k`: a `get` at a clock value strictly later than
`e.timestamp + maxAge` is a miss, deletes exactly that key and leaves
every other key untouched (there is no background sweep — `get` is the
only place expiry happens and it only touches the looked-up key); a
`get` at or before `e.timestamp + maxAge` returns the stored result and
leaves the cache unchanged. -/
theorem imageCache_ttl_lazy_expiry {V : Type} (c : ImageCache V)
    (k : String) (e : CacheEntry V) (now : Nat)
    (hfind : mapLookup c.entries k = some e) :
    (now > e.timestamp + c.maxAge →
        (c.get now k).1 = none
      ∧ mapLookup (c.get now k).2.entries k = none
      ∧ ∀ k', k' ≠ k →
          mapLookup (c.get now k).2.entries k' = mapLookup c.entries k')
    ∧ (now ≤ e.timestamp + c.maxAge →
        (c.get now k).1 = some e.result ∧ (c.get now k).2 = c) := by
  constructor
  · intro hexp
    have hc : now - e.timestamp > c.maxAge := by omega
    simp only [ImageCache.get, hfind, if_pos hc]
    refine ⟨by trivial, mapLookup_mapDelete_self _ _, ?_⟩
    intro k' hk'
    exact mapLookup_mapDelete_ne _ _ _ hk'
  · intro hfresh
    have hc : ¬ now - e.timestamp > c.maxAge := by omega
    simp only [ImageCache.get, hfind, if_neg hc]
    exact ⟨by trivial, by trivial⟩

/-- Witness for C3 at a concrete cache: an entry stored at time 0 in a
cache with TTL 10 is a hit at time 10 and an expired, deleted miss at
time 11. -/
theorem imageCache_ttl_lazy_expiry_witness :
    ((((ImageCache.mk' Nat 100 10).set 0 "k" 7).get 11 "k").1 = none
      ∧ mapLookup ((((ImageCache.mk' Nat 100 10).set 0 "k" 7).get 11
          "k").2.entries) "k" = none)
    ∧ ((((ImageCache.mk' Nat 100 10).set 0 "k" 7).get 10 "k").1 = some 7) := by
  have h := imageCache_ttl_lazy_expiry
    ((ImageCache.mk' Nat 100 10).set 0 "k" 7) "k" ⟨"k", 0, 7⟩ 11 (by decide)
  have h' := imageCache_ttl_lazy_expiry
    ((ImageCache.mk' Nat 100 10).set 0 "k" 7) "k" ⟨"k", 0, 7⟩ 10 (by decide)
  have he := h.1 (by decide)
  exact ⟨⟨he.1, he.2.1⟩, (h'.2 (by decide)).1⟩

/-- C2 (code bug): capacity eviction fails when no stored timestamp is
strictly below the current clock.  Concrete failing run: a cache with
`maxSize = 1`; `set` of key `"a"` and then key `"b"`, both at clock
time 5.  The second `set` finds size 1 ≥ 1 and calls
`removeOldestEntry`, but its minimum tracker starts at `Date.now()`
(= 5) and uses a strict `<`, so the entry `("a", 5)` is not selected
and nothing is evicted; the new entry is inserted anyway.  The cache
ends with 2 entries and the oldest entry `"a"` still present, while the
claim (and cache.ts's own doc comment) promises exactly `maxSize`
entries with the oldest absent. -/
theorem imageCache_eviction_code_bug :
    ((((ImageCache.mk' Nat 1 3600000).set 5 "a" 10).set 5 "b" 20).entries.length = 2)
    ∧ mapLookup (((ImageCache.mk' Nat 1 3600000).set 5 "a" 10).set 5
        "b" 20).entries "a" = some ⟨"a", 5, 10⟩
    ∧ mapLookup (((ImageCache.mk' Nat 1 3600000).set 5 "a" 10).set 5
        "b" 20).entries "b" = some ⟨"b", 5, 20⟩ := by
  decide

/-! ## Fingerprint builder (Sharpify.getCacheKey)

`getCacheKey(input, options)` returns
`` `${inputHash}-${JSON.stringify(options)}` `` where `inputHash` is the
string input itself, or the first 32 characters of the base64 rendering
of a byte buffer.  A JS object literal is modelled as its insertion-
ordered list of (key, value) pairs, which is exactly the order
`JSON.stringify` serializes; `JSON.stringify` performs no key sorting. -/

/-- JSON-serializable option values occurring in the option bags. -/
inductive JVal where
  | jnum (n : Int)
  | jstr (s : String)
  | jbool (b : Bool)
deriving DecidableEq, Repr

/-- `JSON.stringify` of a primitive value (string values in the option
bags of this library need no escaping). -/
def JVal.serialize : JVal → String
  | .jnum n => toString n
  | .jstr s => "\"" ++ s ++ "\""
  | .jbool b => cond b "true" "false"

/-- `JSON.stringify` of an object: keys in insertion order. -/
def jsonStringify (o : List (String × JVal)) : String :=
  "\x7b" ++ String.intercalate ","
    (o.map (fun p => "\"" ++ p.1 ++ "\":" ++ p.2.serialize)) ++ "\x7d"

/-- The base64 alphabet used by `Buffer.toString('base64')`. -/
def base64Alphabet : List Char :=
  "ABCDEFGHIJKLMNOPQRSTUVWXYZabcdefghijklmnopqrstuvwxyz0123456789+/".toList

/-- Base64 digit for a 6-bit value. -/
def b64char (n : Nat) : Char := base64Alphabet.getD n '?'

/-- Base64 rendering of a byte list, three bytes to four digits, with
`=` padding. -/
def base64Chunks : List Nat → List Char
  | [] => []
  | [a] => [b64char (a / 4), b64char (a % 4 * 16), '=', '=']
  | [a, b] =>
      [b64char (a / 4), b64char (a % 4 * 16 + b / 16), b64char (b % 16 * 4), '=']
  | a :: b :: c :: t =>
      [b64char (a / 4), b64char (a % 4 * 16 + b / 16),
       b64char (b % 16 * 4 + c / 64), b64char (c % 64)] ++ base64Chunks t

/-- A process input: a string reference or a byte buffer. -/
inductive ImageInput where
  | str (s : String)
  | buf (bytes : List Nat)
deriving DecidableEq, Repr

/-- `typeof input === 'string' ? input : input.toString('base64').slice(0, 32)`. -/
def inputHash : ImageInput → String
  | .str s => s
  | .buf b => String.mk ((base64Chunks b).take 32)

/-- `getCacheKey` (part_002 lines 34–37): the fingerprint builder. -/
def getCacheKey (input : ImageInput) (options : List (String × JVal)) :
    String :=
  inputHash input ++ "-" ++ jsonStringify options

lemma getCacheKey_ne_of_json_ne (input : ImageInput)
    (o o' : List (String × JVal))
    (h : jsonStringify o ≠ jsonStringify o') :
    getCacheKey input o ≠ getCacheKey input o' := by
  intro hc
  apply h
  have hd := congrArg String.data hc
  simp only [getCacheKey, String.data_append] at hd
  exact String.ext (List.append_cancel_left hd)

/-- C1 counterexample: the fingerprint builder is NOT field-order
insensitive.  The same two fields (`width = 800`, `format = "webp"`)
inserted in the two different orders produce different cache keys,
because `JSON.stringify` serializes keys in insertion order and
`getCacheKey` performs no normalization. -/
theorem getCacheKey_field_order_counterexample :
    getCacheKey (.str "img") [("width", .jnum 800), ("format", .jstr "webp")]
      ≠ getCacheKey (.str "img") [("format", .jstr "webp"), ("width", .jnum 800)] := by
  decide

/-- C1 amended: the cache key is the insertion-ordered serialization of
the option bag.  For every input, bags differing in one field value
(`width 800` vs `width 801`) produce different keys, but bags holding
the same fields with the same values in different insertion order can
also produce different keys. -/
theorem getCacheKey_insertion_order_sensitive (input : ImageInput) :
    getCacheKey input [("width", .jnum 800)]
      ≠ getCacheKey input [("width", .jnum 801)]
    ∧ getCacheKey input [("width", .jnum 800), ("format", .jstr "webp")]
      ≠ getCacheKey input [("format", .jstr "webp"), ("width", .jnum 800)] := by
  constructor
  · exact getCacheKey_ne_of_json_ne _ _ _ (by decide)
  · exact getCacheKey_ne_of_json_ne _ _ _ (by decide)

/-- Witness for C1 (amended) at the concrete input `"image.png"`. -/
theorem getCacheKey_insertion_order_sensitive_witness :
    getCacheKey (.str "image.png") [("width", .jnum 800)]
      ≠ getCacheKey (.str "image.png") [("width", .jnum 801)] :=
  (getCacheKey_insertion_order_sensitive (.str "image.png")).1

/-! ## Pipeline composer (Sharpify.process, src/ImageProcessor.ts)

`process` builds a sharp pipeline by a fixed chain of conditionals
(lines 77–135).  The chain is modelled as the ordered list of enabled
`PipelineStep`s; the external engine then folds over that list. -/

/-- Output formats accepted by `process`. -/
inductive ImageFormat where
  | jpeg | png | webp | avif
deriving DecidableEq, Repr

/-- Watermark anchor (types.ts `WatermarkPosition` union). -/
inductive WatermarkPosition where
  | topLeft | topRight | bottomLeft | bottomRight | center
deriving DecidableEq, Repr

/-- The crop rectangle option. -/
structure CropRect where
  left : ℚ
  top : ℚ
  width : ℚ
  height : ℚ
deriving DecidableEq, Repr

/-- The `watermark` option object of `process`. -/
structure WatermarkOptions where
  text : String
  font : Option String := none
  size : Option ℚ := none
  color : Option String := none
  opacity : Option ℚ := none
  anchor : Option WatermarkPosition := none
deriving DecidableEq, Repr

/-- The option bag of `Sharpify.process` (ImageProcessor.ts lines 43–67);
absent fields are `none` / `false`. -/
structure ProcessOptions where
  format : Option ImageFormat := none
  quality : Option ℚ := none
  width : Option ℚ := none
  height : Option ℚ := none
  crop : Option CropRect := none
  blur : Option ℚ := none
  sharpen : Bool := false
  grayscale : Bool := false
  rotate : Option ℚ := none
  flip : Bool := false
  flop : Bool := false
  tint : Option String := none
  brightness : Option ℚ := none
  saturation : Option ℚ := none
  contrast : Option ℚ := none
  watermark : Option WatermarkOptions := none
deriving DecidableEq, Repr

/-- One transform step driven through the external engine. -/
inductive PipelineStep where
  | resize (width height : Option ℚ)
  | crop (rect : CropRect)
  | blur (sigma : ℚ)
  | sharpen
  | grayscale
  | tint (color : String)
  | modulate (brightness saturation : Option ℚ)
  | linear (a b : ℚ)
  | rotate (angle : ℚ)
  | flip
  | flop
  | compositeOverlay (w : WatermarkOptions)
  | encode (format : ImageFormat) (quality : ℚ)
deriving DecidableEq, Repr

/-- JS truthiness of an optional number (`undefined` and `0` are falsy). -/
def truthyNum : Option ℚ → Bool
  | none => false
  | some q => decide (q ≠ 0)

/-- JS truthiness of an optional string (`undefined` and `""` are falsy). -/
def truthyStr : Option String → Bool
  | none => false
  | some s => decide (s ≠ "")

/-- `options.quality || 80` (ImageProcessor.ts line 130): the default 80
is used when quality is `undefined` — and also when it is `0`, since
`||` tests truthiness. -/
def qualityOrDefault (o : ProcessOptions) : ℚ :=
  match o.quality with
  | none => 80
  | some q => if q = 0 then 80 else q

/-- One conditional of the pipeline chain: the step list it contributes. -/
def flagStep (b : Bool) (s : PipelineStep) : List PipelineStep :=
  if b then [s] else []

/-- Placeholder rectangle for the disabled-crop branch. -/
def cropDefault : CropRect := ⟨0, 0, 0, 0⟩

/-- Placeholder watermark for the disabled-overlay branch. -/
def wmDefault : WatermarkOptions := { text := "" }

/-- The ordered list of enabled steps derived by `Sharpify.process`
(ImageProcessor.ts lines 77–135), one `flagStep` per `if` in source
order: resize, crop, blur, sharpen, grayscale, tint, modulate,
linear contrast, rotate, flip, flop, watermark compositing, encode. -/
def deriveSteps (o : ProcessOptions) : List PipelineStep :=
  flagStep (truthyNum o.width || truthyNum o.height) (.resize o.width o.height) ++
  flagStep o.crop.isSome (.crop (o.crop.getD cropDefault)) ++
  flagStep (truthyNum o.blur) (.blur (o.blur.getD 0)) ++
  flagStep o.sharpen .sharpen ++
  flagStep o.grayscale .grayscale ++
  flagStep (truthyStr o.tint) (.tint (o.tint.getD "")) ++
  flagStep (o.brightness.isSome || o.saturation.isSome)
    (.modulate o.brightness o.saturation) ++
  flagStep o.contrast.isSome
    (.linear (o.contrast.getD 0) (-(o.contrast.getD 0 - 1) * 128)) ++
  flagStep (truthyNum o.rotate) (.rotate (o.rotate.getD 0)) ++
  flagStep o.flip .flip ++
  flagStep o.flop .flop ++
  flagStep o.watermark.isSome (.compositeOverlay (o.watermark.getD wmDefault)) ++
  flagStep o.format.isSome (.encode (o.format.getD .jpeg) (qualityOrDefault o))

/-- Rank of a step in the fixed execution order of the composer. -/
def stepRank : PipelineStep → Nat
  | .resize _ _ => 0
  | .crop _ => 1
  | .blur _ => 2
  | .sharpen => 3
  | .grayscale => 4
  | .tint _ => 5
  | .modulate _ _ => 6
  | .linear _ _ => 7
  | .rotate _ => 8
  | .flip => 9
  | .flop => 10
  | .compositeOverlay _ => 11
  | .encode _ _ => 12

/-- Is a step the final format-encode step? -/
def isEncode : PipelineStep → Bool
  | .encode _ _ => true
  | _ => false

/-- Is a step a pixel filter (blur, sharpen, grayscale, tint)? -/
def isPixelFilter : PipelineStep → Bool
  | .blur _ => true
  | .sharpen => true
  | .grayscale => true
  | .tint _ => true
  | _ => false

/-- Is a step a geometric-orientation step (rotate, flip, flop)? -/
def isOrientation : PipelineStep → Bool
  | .rotate _ => true
  | .flip => true
  | .flop => true
  | _ => false

/-- The full step list with every conditional enabled, in source order. -/
def allStepsOrdered (o : ProcessOptions) : List PipelineStep :=
  [.resize o.width o.height,
   .crop (o.crop.getD cropDefault),
   .blur (o.blur.getD 0),
   .sharpen,
   .grayscale,
   .tint (o.tint.getD ""),
   .modulate o.brightness o.saturation,
   .linear (o.contrast.getD 0) (-(o.contrast.getD 0 - 1) * 128),
   .rotate (o.rotate.getD 0),
   .flip,
   .flop,
   .compositeOverlay (o.watermark.getD wmDefault),
   .encode (o.format.getD .jpeg) (qualityOrDefault o)]

lemma flagStep_append_sublist (b : Bool) (x : PipelineStep)
    {l l' : List PipelineStep} (h : l.Sublist l') :
    (flagStep b x ++ l).Sublist (x :: l') := by
  cases b
  · simpa [flagStep] using h.cons x
  · simpa [flagStep] using h.cons₂ x

lemma deriveSteps_sublist (o : ProcessOptions) :
    (deriveSteps o).Sublist (allStepsOrdered o) := by
  unfold deriveSteps allStepsOrdered
  simp only [List.append_assoc]
  refine flagStep_append_sublist _ _ (flagStep_append_sublist _ _
    (flagStep_append_sublist _ _ (flagStep_append_sublist _ _
    (flagStep_append_sublist _ _ (flagStep_append_sublist _ _
    (flagStep_append_sublist _ _ (flagStep_append_sublist _ _
    (flagStep_append_sublist _ _ (flagStep_append_sublist _ _
    (flagStep_append_sublist _ _ (flagStep_append_sublist _ _ ?_)))))))))))
  simpa using flagStep_append_sublist o.format.isSome
    (.encode (o.format.getD .jpeg) (qualityOrDefault o)) (List.Sublist.refl [])

lemma allStepsOrdered_pairwise (o : ProcessOptions) :
    (allStepsOrdered o).Pairwise (fun a b => stepRank a < stepRank b) := by
  simp [allStepsOrdered, List.pairwise_cons, stepRank]

lemma deriveSteps_pairwise (o : ProcessOptions) :
    (deriveSteps o).Pairwise (fun a b => stepRank a < stepRank b) :=
  (allStepsOrdered_pairwise o).sublist (deriveSteps_sublist o)

lemma deriveSteps_encode_last (o : ProcessOptions) (f : ImageFormat)
    (hf : o.format = some f) :
    (deriveSteps o).getLast? = some (.encode f (qualityOrDefault o)) := by
  have hlast : flagStep o.format.isSome
      (.encode (o.format.getD .jpeg) (qualityOrDefault o))
      = [.encode f (qualityOrDefault o)] := by
    simp [flagStep, hf]
  unfold deriveSteps
  rw [hlast]
  exact List.getLast?_concat _

lemma mem_flagStep {b : Bool} {x s : PipelineStep} (h : s ∈ flagStep b x) :
    b = true ∧ s = x := by
  cases b
  · simp [flagStep] at h
  · exact ⟨rfl, by simpa [flagStep] using h⟩

lemma deriveSteps_no_encode (o : ProcessOptions) (hf : o.format = none) :
    ∀ s ∈ deriveSteps o, isEncode s = false := by
  intro s hs
  unfold deriveSteps at hs
  rw [hf] at hs
  simp only [List.append_assoc, List.mem_append] at hs
  rcases hs with h|h|h|h|h|h|h|h|h|h|h|h|h <;>
    first
      | (rw [(mem_flagStep h).2]; rfl)
      | exact absurd (mem_flagStep h).1 (by simp)

lemma rank_of_orientation {s : PipelineStep} (h : isOrientation s = true) :
    8 ≤ stepRank s := by
  cases s <;> simp [isOrientation, stepRank] at h ⊢

lemma rank_of_pixelFilter {s : PipelineStep} (h : isPixelFilter s = true) :
    stepRank s ≤ 5 := by
  cases s <;> simp [isPixelFilter, stepRank] at h ⊢

/-- C6: fixed pipeline step order.  For every option bag the step list
derived by `process` is strictly sorted by the fixed rank
resize < crop < blur < sharpen < grayscale < tint < modulate <
linear contrast < rotate < flip < flop < overlay compositing < encode;
consequently no geometric-orientation step (rotate/flip/flop) ever
precedes a pixel filter (blur/sharpen/grayscale/tint), and when a
format is requested the encode step is the last step. -/
theorem process_fixed_step_order (o : ProcessOptions) :
    (deriveSteps o).Pairwise (fun a b => stepRank a < stepRank b)
    ∧ (deriveSteps o).Pairwise
        (fun a b => isOrientation a = true → isPixelFilter b = true → False)
    ∧ (∀ f, o.format = some f →
        (deriveSteps o).getLast? = some (.encode f (qualityOrDefault o))) := by
  refine ⟨deriveSteps_pairwise o, ?_, ?_⟩
  · refine (deriveSteps_pairwise o).imp ?_
    intro a b hr ho hp
    have h1 := rank_of_orientation ho
    have h2 := rank_of_pixelFilter hp
    omega
  · intro f hf
    exact deriveSteps_encode_last o f hf

/-- A concrete option bag exercising a pixel filter, an orientation
step and an encode: blur 2, rotate 90, format webp. -/
def sampleOptions : ProcessOptions :=
  { blur := some 2, rotate := some 90, format := some ImageFormat.webp }

/-- Witness for C6 at the concrete option bag `sampleOptions`: the
derived step list is rank-sorted and ends with the encode step. -/
theorem process_fixed_step_order_witness :
    (deriveSteps sampleOptions).Pairwise (fun a b => stepRank a < stepRank b)
    ∧ (deriveSteps sampleOptions).getLast?
      = some (.encode .webp (qualityOrDefault sampleOptions)) :=
  ⟨(process_fixed_step_order _).1,
   (process_fixed_step_order _).2.2 .webp rfl⟩

/-- C9 counterexample: a *given* quality is not always used as-is.
With `format` set and `quality = 0`, the encode step runs with
quality 80, because `options.quality || 80` treats the given `0` as
falsy. -/
theorem encode_quality_zero_counterexample :
    qualityOrDefault { format := some ImageFormat.jpeg, quality := some 0 } = 80
    ∧ (deriveSteps { format := some ImageFormat.jpeg, quality := some 0 }).getLast?
        = some (.encode .jpeg 80)
    ∧ (80 : ℚ) ≠ 0 := by
  refine ⟨by norm_num [qualityOrDefault], ?_, by norm_num⟩
  have h := deriveSteps_encode_last
    { format := some ImageFormat.jpeg, quality := some 0 } .jpeg rfl
  simpa [qualityOrDefault] using h

/-- C9 amended: whenever `format` is set, the final encode step uses
quality 80 when `quality` is unspecified — or specified as `0`, which
`||` treats as unspecified — and uses a given nonzero quality as-is;
when no format is requested no encode step is derived (the source
format is preserved). -/
theorem encode_quality_default (o : ProcessOptions) :
    (∀ f, o.format = some f →
        (deriveSteps o).getLast? = some (.encode f (qualityOrDefault o))
      ∧ (o.quality = none → qualityOrDefault o = 80)
      ∧ (∀ q, o.quality = some q → q ≠ 0 → qualityOrDefault o = q)
      ∧ (o.quality = some 0 → qualityOrDefault o = 80))
    ∧ (o.format = none → ∀ s ∈ deriveSteps o, isEncode s = false) := by
  constructor
  · intro f hf
    refine ⟨deriveSteps_encode_last o f hf, ?_, ?_, ?_⟩
    · intro hq; simp [qualityOrDefault, hq]
    · intro q hq hq0; simp [qualityOrDefault, hq, hq0]
    · intro hq; simp [qualityOrDefault, hq]
  · exact deriveSteps_no_encode o

/-- A concrete option bag with a nonzero given quality. -/
def quality85Options : ProcessOptions :=
  { format := some ImageFormat.webp, quality := some 85 }

/-- Witness for C9 (amended) at the concrete option bag
`quality85Options` (format webp, quality 85): the encode step is last
and uses 85 as-is. -/
theorem encode_quality_default_witness :
    (deriveSteps quality85Options).getLast?
      = some (.encode .webp (qualityOrDefault quality85Options))
    ∧ qualityOrDefault quality85Options = 85 :=
  ⟨((encode_quality_default _).1 .webp rfl).1,
   ((encode_quality_default _).1 .webp rfl).2.2.1 85 rfl (by norm_num)⟩

/-! ## Positioning calculator (part_001 `getWatermarkPosition`,
`textAnchor` from `generateWatermarkSVG`)

The calculator branches on `position.includes('top')` etc.; the anchor
domain is the five-literal union `WatermarkPosition`. -/

/-- The string literal of a `WatermarkPosition` (types.ts union). -/
def posStr : WatermarkPosition → String
  | .topLeft => "top-left"
  | .topRight => "top-right"
  | .bottomLeft => "bottom-left"
  | .bottomRight => "bottom-right"
  | .center => "center"

/-- JS `String.prototype.includes`. -/
def strIncludes (hay needle : String) : Bool :=
  decide (needle.toList <:+: hay.toList)

/-- `getWatermarkPosition` (part_001 lines 275–303): pure position
calculator mapping (container size, content size estimate, anchor,
padding) to (x, y). -/
def getWatermarkPosition (imageWidth imageHeight textWidth fontSize : ℚ)
    (position : WatermarkPosition) (padding : ℚ) : ℚ × ℚ :=
  let y : ℚ :=
    if strIncludes (posStr position) "top" then padding + fontSize
    else if strIncludes (posStr position) "bottom" then imageHeight - padding
    else imageHeight / 2
  let x : ℚ :=
    if strIncludes (posStr position) "left" then padding
    else if strIncludes (posStr position) "right" then imageWidth - padding
    else imageWidth / 2
  (x, y)

/-- `textAnchor` (part_001 lines 236–238): the SVG text alignment
derived from the anchor. -/
def textAnchor (position : WatermarkPosition) : String :=
  if strIncludes (posStr position) "right" then "end"
  else if strIncludes (posStr position) "center" then "middle"
  else "start"

/-- Spec-side `place` contract, written from the specification's words
(§4.4): vertical rule by top/bottom/center, horizontal rule together
with the text alignment by left/right/center.  Used only for
comparison with the source-derived calculator. -/
def placeSpec (containerWidth containerHeight contentWidthEstimate
    contentHeight : ℚ) (anchor : WatermarkPosition) (padding : ℚ) :
    ℚ × ℚ × String :=
  let _ := contentWidthEstimate
  let y : ℚ :=
    match anchor with
    | .topLeft | .topRight => padding + contentHeight
    | .bottomLeft | .bottomRight => containerHeight - padding
    | .center => containerHeight / 2
  let xa : ℚ × String :=
    match anchor with
    | .topLeft | .bottomLeft => (padding, "start")
    | .topRight | .bottomRight => (containerWidth - padding, "end")
    | .center => (containerWidth / 2, "middle")
  (xa.1, y, xa.2)

/-- C7: the watermark position calculator agrees with the spec's
`place` contract for every container size, content size, anchor and
padding, and on the three concrete examples:
`place(200, 200, 40, 24, bottom-right, 10) = (190, 190, end)`,
`place(200, 200, 40, 24, top-left, 10) = (10, 34, start)`,
`place(200, 200, 40, 24, center, 10) = (100, 100, middle)`. -/
theorem getWatermarkPosition_matches_place_spec :
    (∀ (w h tw fh pad : ℚ) (pos : WatermarkPosition),
      placeSpec w h tw fh pos pad
        = ((getWatermarkPosition w h tw fh pos pad).1,
           (getWatermarkPosition w h tw fh pos pad).2,
           textAnchor pos))
    ∧ getWatermarkPosition 200 200 40 24 .bottomRight 10 = (190, 190)
    ∧ textAnchor .bottomRight = "end"
    ∧ getWatermarkPosition 200 200 40 24 .topLeft 10 = (10, 34)
    ∧ textAnchor .topLeft = "start"
    ∧ getWatermarkPosition 200 200 40 24 .center 10 = (100, 100)
    ∧ textAnchor .center = "middle" := by
  refine ⟨?_, ?_, ?_, ?_, ?_, ?_, ?_⟩ <;>
    first
    | (intro w h tw fh pad pos
       cases pos <;>
         simp +decide [placeSpec, getWatermarkPosition, textAnchor, posStr,
           strIncludes])
    | (simp +decide [getWatermarkPosition, textAnchor, posStr, strIncludes,
        Prod.ext_iff] <;> norm_num)

/-! ## Input validation and error classification (part_002)

`process` is `safeExecute('process image', async () => \x7b
validateInput(input); ... sharp(input) ... \x7d)`: validation runs
before any engine (`sharp`) call, and any thrown error is wrapped by
`safeExecute` into an `ImageProcessingError` whose operation tag is the
label passed to `safeExecute` — the string `"process image"`. -/

/-- `ImageProcessingError` (errors.ts): message, original cause,
operation tag. -/
structure ImageProcessingError where
  message : String
  cause : Option String := none
  operation : Option String := none
deriving DecidableEq, Repr

/-- JS `String.prototype.trim`: strip leading and trailing whitespace. -/
def jsTrim (s : String) : String :=
  String.mk (((s.toList.dropWhile Char.isWhitespace).reverse.dropWhile
    Char.isWhitespace).reverse)

/-- `validateInput` (part_002 lines 25–32): reject an empty buffer and
a blank (all-whitespace) string (`!input.trim()`). -/
def validateInput : ImageInput → Except String Unit
  | .buf b => if b.length = 0 then .error "Empty buffer provided" else .ok ()
  | .str s => if jsTrim s = "" then .error "Empty string provided" else .ok ()

/-- `safeExecute` (part_002 lines 39–52): wrap a failure into
`ImageProcessingError` with message `"Failed to " ++ operation` and the
operation label itself as the tag. -/
def safeExecute {α : Type} (operation : String) (r : Except String α) :
    Except ImageProcessingError α :=
  match r with
  | .ok a => .ok a
  | .error e =>
      .error { message := "Failed to " ++ operation, cause := some e,
               operation := some operation }

/-- `process` (part_002 lines 69–172) modelled to the validation
boundary: `validateInput` runs first; only if it passes does the body
reach `sharp(input)`.  The body past validation is abstracted to
success; the `Bool` records whether the external engine was invoked
during the call. -/
def processValidated (input : ImageInput) (_options : ProcessOptions) :
    Except ImageProcessingError Unit × Bool :=
  match validateInput input with
  | .error e => (safeExecute "process image" (Except.error e), false)
  | .ok _ => (safeExecute "process image" (Except.ok ()), true)

/-- C8 counterexample: processing an empty byte buffer fails before the
engine is invoked, but the error's operation tag is the `safeExecute`
label `"process image"`, not `"process"` as the claim states. -/
theorem process_validation_tag_counterexample :
    (processValidated (.buf []) {}).1
      = Except.error { message := "Failed to process image",
                       cause := some "Empty buffer provided",
                       operation := some "process image" }
    ∧ (processValidated (.buf []) {}).2 = false
    ∧ some "process image" ≠ some "process" := by
  refine ⟨rfl, rfl, by decide⟩

/-- C8 amended: an empty byte buffer and a blank string input both fail
validation; every validation failure surfaces as an
`ImageProcessingError` tagged with the operation label
`"process image"` (carrying the validation message as its cause), and
the external engine is never invoked for that call. -/
theorem process_validation_before_engine :
    (validateInput (.buf []) = Except.error "Empty buffer provided")
    ∧ (∀ s : String, jsTrim s = "" →
        validateInput (.str s) = Except.error "Empty string provided")
    ∧ (∀ (input : ImageInput) (o : ProcessOptions) (m : String),
        validateInput input = Except.error m →
          (processValidated input o).1
            = Except.error { message := "Failed to process image",
                             cause := some m,
                             operation := some "process image" }
          ∧ (processValidated input o).2 = false) := by
  refine ⟨rfl, ?_, ?_⟩
  · intro s hs
    simp [validateInput, hs]
  · intro input o m hv
    simp [processValidated, hv, safeExecute]

/-- Witness for C8 (amended) at the blank string input `"   "`. -/
theorem process_validation_before_engine_witness :
    (processValidated (.str "   ") {}).1
      = Except.error { message := "Failed to process image",
                       cause := some "Empty string provided",
                       operation := some "process image" }
    ∧ (processValidated (.str "   ") {}).2 = false :=
  process_validation_before_engine.2.2 (.str "   ") {}
    "Empty string provided" (by rfl)

/-! ## Metadata statistics (`Sharpify.getStats`, ImageProcessor.ts
lines 13–30 / processors/analyze.ts)

Every field read from `sharp(input).metadata()` is defaulted with `||`;
the aspect-ratio denominator is `metadata.height || 1`. -/

/-- The metadata fields `getStats` reads; each may be absent. -/
structure SharpMetadata where
  size : Option ℚ := none
  format : Option String := none
  width : Option ℚ := none
  height : Option ℚ := none
  hasAlpha : Option Bool := none
  space : Option String := none
  channels : Option ℚ := none
  compression : Option String := none
deriving DecidableEq, Repr

/-- JS `x || d` for an optional number (`undefined` and `0` are falsy). -/
def orFalsyNum (o : Option ℚ) (d : ℚ) : ℚ :=
  match o with
  | none => d
  | some x => if x = 0 then d else x

/-- JS `x || d` for an optional string (`undefined` and `""` falsy). -/
def orFalsyStr (o : Option String) (d : String) : String :=
  match o with
  | none => d
  | some s => if s = "" then d else s

/-- JS `x || d` for an optional boolean. -/
def orFalsyBool (o : Option Bool) (d : Bool) : Bool :=
  match o with
  | none => d
  | some b => b || d

/-- The `ImageStats` record returned by `getStats`. -/
structure ImageStats where
  size : ℚ
  format : String
  width : ℚ
  height : ℚ
  aspectRatio : ℚ
  hasAlpha : Bool
  colorSpace : String
  channels : ℚ
  compression : Option String
deriving DecidableEq, Repr

/-- `getStats` (ImageProcessor.ts lines 13–30): every absent metadata
field is defaulted; `aspectRatio = (width || 0) / (height || 1)`. -/
def getStats (m : SharpMetadata) : ImageStats :=
  { size := orFalsyNum m.size 0
    format := orFalsyStr m.format "unknown"
    width := orFalsyNum m.width 0
    height := orFalsyNum m.height 0
    aspectRatio := orFalsyNum m.width 0 / orFalsyNum m.height 1
    hasAlpha := orFalsyBool m.hasAlpha false
    colorSpace := orFalsyStr m.space "unknown"
    channels := orFalsyNum m.channels 0
    compression := m.compression }

/-- C10 counterexample: an image with `width = 800` and `height = 0`
yields `aspectRatio = 800 / 1 = 800`, not `0` as the claim states. -/
theorem getStats_aspect_counterexample :
    (getStats { width := some 800, height := some 0 }).aspectRatio = 800
    ∧ (800 : ℚ) ≠ 0 := by
  constructor
  · norm_num [getStats, orFalsyNum]
  · norm_num

/-- C10 amended: `getStats` is total over missing metadata — every
absent field is defaulted (size 0, format "unknown", width 0, height 0,
hasAlpha false, colorSpace "unknown", channels 0), the aspect-ratio
denominator `height || 1` is never 0 (no division by zero), and an
image whose height is 0 or missing gets
`aspectRatio = (width || 0) / 1`, i.e. the defaulted width — which is 0
only when the width is also 0 or missing. -/
theorem getStats_total_defaults (m : SharpMetadata) :
    (m.size = none → (getStats m).size = 0)
    ∧ (m.format = none → (getStats m).format = "unknown")
    ∧ (m.width = none → (getStats m).width = 0)
    ∧ (m.height = none → (getStats m).height = 0)
    ∧ (m.hasAlpha = none → (getStats m).hasAlpha = false)
    ∧ (m.space = none → (getStats m).colorSpace = "unknown")
    ∧ (m.channels = none → (getStats m).channels = 0)
    ∧ orFalsyNum m.height 1 ≠ 0
    ∧ (getStats m).aspectRatio = orFalsyNum m.width 0 / orFalsyNum m.height 1
    ∧ ((m.height = none ∨ m.height = some 0) →
        (getStats m).aspectRatio = orFalsyNum m.width 0) := by
  have hden : orFalsyNum m.height 1 ≠ 0 := by
    cases hh : m.height with
    | none => norm_num [orFalsyNum]
    | some x =>
      by_cases hx : x = 0 <;> simp [orFalsyNum, hx]
  refine ⟨?_, ?_, ?_, ?_, ?_, ?_, ?_, hden, rfl, ?_⟩
  · intro h; simp [getStats, orFalsyNum, h]
  · intro h; simp [getStats, orFalsyStr, h]
  · intro h; simp [getStats, orFalsyNum, h]
  · intro h; simp [getStats, orFalsyNum, h]
  · intro h; simp [getStats, orFalsyBool, h]
  · intro h; simp [getStats, orFalsyStr, h]
  · intro h; simp [getStats, orFalsyNum, h]
  · intro h
    rcases h with h | h <;> simp [getStats, orFalsyNum, h]

/-- Witness for C10 (amended) at the all-absent metadata record. -/
theorem getStats_total_defaults_witness :
    (getStats ({} : SharpMetadata)).format = "unknown"
    ∧ (getStats ({} : SharpMetadata)).aspectRatio
        = orFalsyNum ({} : SharpMetadata).width 0 :=
  ⟨(getStats_total_defaults {}).2.1 rfl,
   (getStats_total_defaults {}).2.2.2.2.2.2.2.2.2 (Or.inl rfl)⟩

/-! ## Batch processing: order preservation (`Sharpify.batchProcess`)

`batchProcess` is `Promise.all(inputs.map(input => process(input,
options)))`.  `Promise.all` allocates one result slot per input and
stores each item's result at *its own index* when that item completes,
whatever the completion order; the model therefore takes an arbitrary
completion order and shows the assembled array equals the index-wise
map.  Per-item processing is the pipeline fold over the derived steps,
with the engine abstract. -/

/-- Drive a decoded image through the derived steps of the composer. -/
def processPure {Img : Type} (engine : Img → PipelineStep → Img)
    (decode : ImageInput → Img) (input : ImageInput)
    (o : ProcessOptions) : Img :=
  (deriveSteps o).foldl engine (decode input)

/-- One completion event of `Promise.all`: item `j` finished, store its
result at slot `j`. -/
def completeOne {α β : Type} (f : α → β) (inputs : List α)
    (acc : List (Option β)) (j : Nat) : List (Option β) :=
  match inputs.get? j with
  | some a => acc.set j (some (f a))
  | none => acc

/-- `Promise.all` over `inputs.map f`: slots start empty and are filled
in the given completion order. -/
def promiseAll {α β : Type} (f : α → β) (inputs : List α)
    (order : List Nat) : List (Option β) :=
  order.foldl (completeOne f inputs) (List.replicate inputs.length none)

lemma completeOne_length {α β : Type} (f : α → β) (inputs : List α)
    (acc : List (Option β)) (j : Nat) :
    (completeOne f inputs acc j).length = acc.length := by
  unfold completeOne
  cases inputs.get? j <;> simp

lemma foldl_completeOne_get {α β : Type} (f : α → β) (inputs : List α) :
    ∀ (order : List Nat) (acc : List (Option β)) (i : Nat)
      (hacc : acc.length = inputs.length) (hi : i < inputs.length),
      (order.foldl (completeOne f inputs) acc).get? i
        = if i ∈ order then some (some (f inputs[i])) else acc.get? i := by
  intro order
  induction order with
  | nil => intro acc i _ _; simp
  | cons j t ih =>
    intro acc i hacc hi
    rw [List.foldl_cons,
      ih (completeOne f inputs acc j) i
        ((completeOne_length f inputs acc j).trans hacc) hi]
    by_cases hmem : i ∈ t
    · rw [if_pos hmem, if_pos (List.mem_cons_of_mem j hmem)]
    · by_cases hji : j = i
      · subst hji
        have hget : inputs.get? j = some inputs[j] := List.get?_eq_get hi
        have hset : (completeOne f inputs acc j).get? j
            = some (some (f inputs[j])) := by
          rw [completeOne, hget, List.get?_set_eq_of_lt]
          rw [hacc]; exact hi
        rw [if_neg hmem, if_pos (List.mem_cons_self j t), hset]
      · have hpres : (completeOne f inputs acc j).get? i = acc.get? i := by
          rw [completeOne]
          cases inputs.get? j with
          | none => rfl
          | some a => exact List.get?_set_ne _ _ hji
        rw [if_neg hmem, hpres,
          if_neg (by rw [List.mem_cons]; push_neg; exact ⟨fun h => hji h.symm, hmem⟩)]

lemma foldl_completeOne_get_of_ge {α β : Type} (f : α → β)
    (inputs : List α) :
    ∀ (order : List Nat) (acc : List (Option β)) (i : Nat),
      inputs.length ≤ i →
      (order.foldl (completeOne f inputs) acc).get? i = acc.get? i := by
  intro order
  induction order with
  | nil => intro acc i _; rfl
  | cons j t ih =>
    intro acc i hi
    rw [List.foldl_cons, ih (completeOne f inputs acc j) i hi]
    rw [completeOne]
    cases hj : inputs.get? j with
    | none => rfl
    | some a =>
      have hjlt : j < inputs.length := by
        by_contra hc
        rw [List.get?_eq_none.mpr (by omega)] at hj
        exact Option.noConfusion hj
      exact List.get?_set_ne _ _ (by omega)

/-- C4: batch order preservation.  For every engine, option bag and
input list, and every completion order that is a permutation of the
indices (items may finish in any order and at any speed), the array
assembled by `Promise.all` has the same length as the input list and
holds at index `i` exactly the result of processing `inputs[i]`. -/
theorem batchProcess_order_preserved {Img : Type}
    (engine : Img → PipelineStep → Img) (decode : ImageInput → Img)
    (o : ProcessOptions) (inputs : List ImageInput) (order : List Nat)
    (horder : order.Perm (List.range inputs.length)) :
    promiseAll (fun input => processPure engine decode input o) inputs order
      = inputs.map (fun input => some (processPure engine decode input o)) := by
  apply List.ext
  intro i
  by_cases hi : i < inputs.length
  · rw [promiseAll, foldl_completeOne_get _ _ order _ i (by simp) hi]
    have hmem : i ∈ order := horder.mem_iff.mpr (List.mem_range.mpr hi)
    rw [if_pos hmem, List.get?_map, List.get?_eq_get hi]
    rfl
  · have hge : inputs.length ≤ i := Nat.le_of_not_lt hi
    rw [promiseAll, foldl_completeOne_get_of_ge _ _ order _ i hge]
    rw [List.get?_eq_none.mpr (by simpa using hge),
      List.get?_eq_none.mpr (by simpa using hge)]

/-- Witness for C4 at three concrete inputs with completion order
[2, 0, 1] (item b slowest): results still line up index-wise. -/
theorem batchProcess_order_preserved_witness :
    promiseAll
        (fun input => processPure (fun img s => img ++ [s])
          (fun _ => ([] : List PipelineStep)) input {})
        [ImageInput.str "a", ImageInput.str "b", ImageInput.str "c"] [2, 0, 1]
      = [ImageInput.str "a", ImageInput.str "b", ImageInput.str "c"].map
          (fun input => some (processPure (fun img s => img ++ [s])
            (fun _ => ([] : List PipelineStep)) input {})) :=
  batchProcess_order_preserved _ _ _ _ _ (by decide)

/-! ## Sequential batch scheduler (part_002 `queueProcess` /
`processQueue`)

`queueProcess` pushes the item and calls `processQueue`; `processQueue`
returns immediately when `isProcessing` is set or the queue is empty,
otherwise sets the flag, shifts the queue head into flight, and on
completion (resolve or reject — the `finally` block is identical for
both) clears the flag, records the item and calls `processQueue`
again.  The state makes the set of in-flight items an unrestricted
list, so that "at most one in flight" is a property of the guarded
transitions, not of the state type. -/

/-- Scheduler state: pending FIFO, items in flight, the
`isProcessing` flag, completed items in completion order. -/
structure SchedState (α : Type) where
  queue : List α
  inFlight : List α
  isProcessing : Bool
  finished : List α
deriving DecidableEq, Repr

/-- The body of `processQueue` (part_002 lines 204–208): no-op when
busy or empty, else shift the head into flight and set the flag. -/
def processQueueStep {α : Type} (s : SchedState α) : SchedState α :=
  if s.isProcessing then s
  else
    match s.queue with
    | [] => s
    | h :: t =>
      { queue := t, inFlight := s.inFlight ++ [h], isProcessing := true,
        finished := s.finished }

/-- Completion of the in-flight item (part_002 lines 210–218): the
`finally` block — identical for success and failure — clears the flag,
then `processQueue` starts the next item. -/
def finishStep {α : Type} (s : SchedState α) : SchedState α :=
  match s.inFlight with
  | [] => s
  | h :: t =>
    processQueueStep
      { queue := s.queue, inFlight := t, isProcessing := false,
        finished := s.finished ++ [h] }

/-- `queueProcess` (part_002 lines 194–202): push, then `processQueue`. -/
def enqueueOne {α : Type} (s : SchedState α) (x : α) : SchedState α :=
  processQueueStep { s with queue := s.queue ++ [x] }

/-- `batchProcess` enqueues all items in call order (the per-item
completions only run after the synchronous enqueue loop). -/
def startBatch {α : Type} (items : List α) : SchedState α :=
  items.foldl enqueueOne ⟨[], [], false, []⟩

/-- Scheduler invariant: no item is lost or reordered, at most one item
is in flight, and the flag mirrors the in-flight set. -/
def SchedInv {α : Type} (items : List α) (s : SchedState α) : Prop :=
  s.finished ++ s.inFlight ++ s.queue = items
  ∧ s.inFlight.length ≤ 1
  ∧ s.isProcessing = !s.inFlight.isEmpty

lemma inv_processQueueStep {α : Type} {items : List α} {s : SchedState α}
    (h : SchedInv items s) : SchedInv items (processQueueStep s) := by
  obtain ⟨h1, h2, h3⟩ := h
  unfold processQueueStep
  by_cases hp : s.isProcessing
  · rw [if_pos hp]; exact ⟨h1, h2, h3⟩
  · rw [if_neg hp]
    have hif : s.inFlight = [] := by
      cases hfl : s.inFlight with
      | nil => rfl
      | cons a l => rw [hfl] at h3; simp at h3; exact absurd h3 hp
    cases hq : s.queue with
    | nil => exact ⟨h1, h2, h3⟩
    | cons x t =>
      rw [hif, hq] at h1
      refine ⟨?_, by simp [hif], by simp⟩
      simpa [hif, List.append_assoc] using h1

lemma inv_finishStep {α : Type} {items : List α} {s : SchedState α}
    (h : SchedInv items s) : SchedInv items (finishStep s) := by
  obtain ⟨h1, h2, h3⟩ := h
  unfold finishStep
  cases hfl : s.inFlight with
  | nil => exact ⟨h1, h2, h3⟩
  | cons a l =>
    have hl : l = [] := by
      rw [hfl] at h2
      simp only [List.length_cons] at h2
      exact List.length_eq_zero.mp (by omega)
    subst hl
    apply inv_processQueueStep
    rw [hfl] at h1
    exact ⟨by simpa [List.append_assoc] using h1, by simp, by simp⟩

lemma inv_enqueueOne {α : Type} {items : List α} {s : SchedState α}
    (x : α) (h : SchedInv items s) :
    SchedInv (items ++ [x]) (enqueueOne s x) := by
  obtain ⟨h1, h2, h3⟩ := h
  apply inv_processQueueStep
  refine ⟨?_, h2, h3⟩
  rw [← h1]
  simp [List.append_assoc]

lemma inv_foldl_enqueue {α : Type} :
    ∀ (items done : List α) (s : SchedState α), SchedInv done s →
      SchedInv (done ++ items) (items.foldl enqueueOne s) := by
  intro items
  induction items with
  | nil => intro done s h; simpa using h
  | cons x t ih =>
    intro done s h
    rw [List.foldl_cons]
    have := ih (done ++ [x]) (enqueueOne s x) (inv_enqueueOne x h)
    simpa [List.append_assoc] using this

lemma inv_startBatch {α : Type} (items : List α) :
    SchedInv items (startBatch items) := by
  have hinit : SchedInv ([] : List α) ⟨[], [], false, []⟩ :=
    ⟨rfl, by simp, rfl⟩
  simpa using inv_foldl_enqueue items [] _ hinit

lemma foldl_enqueue_busy {α : Type} :
    ∀ (t q fl fin : List α),
      t.foldl enqueueOne ⟨q, fl, true, fin⟩ = ⟨q ++ t, fl, true, fin⟩ := by
  intro t
  induction t with
  | nil => intro q fl fin; simp
  | cons x xs ih =>
    intro q fl fin
    rw [List.foldl_cons]
    have hstep : enqueueOne (⟨q, fl, true, fin⟩ : SchedState α) x
        = ⟨q ++ [x], fl, true, fin⟩ := rfl
    rw [hstep, ih]
    simp

lemma drain_busy {α : Type} :
    ∀ (q : List α) (h : α) (fin : List α),
      (finishStep^[q.length + 1]) ⟨q, [h], true, fin⟩
        = ⟨[], [], false, fin ++ h :: q⟩ := by
  intro q
  induction q with
  | nil =>
    intro h fin
    rfl
  | cons y ys ih =>
    intro h fin
    have hstep : finishStep (⟨y :: ys, [h], true, fin⟩ : SchedState α)
        = ⟨ys, [y], true, fin ++ [h]⟩ := rfl
    rw [show (y :: ys).length + 1 = (ys.length + 1) + 1 from by simp,
      Function.iterate_succ_apply, hstep, ih y (fin ++ [h])]
    simp

/-- C5: sequential batch scheduling.  Along the entire run of the
scheduler — all items enqueued in call order, then completion steps
(each the success-or-failure `finally` handler followed by the chained
`processQueue`) — at most one item is ever in flight, and the completed
items, the in-flight item and the pending queue always concatenate to
the original item list in enqueue order (items are dequeued FIFO and
never reordered).  Moreover after exactly `items.length` completions
the run has finished every item, in the original order. -/
theorem batchProcess_sequential {α : Type} (items : List α) (k : Nat) :
    ((finishStep^[k]) (startBatch items)).inFlight.length ≤ 1
    ∧ ((finishStep^[k]) (startBatch items)).finished
        ++ ((finishStep^[k]) (startBatch items)).inFlight
        ++ ((finishStep^[k]) (startBatch items)).queue = items
    ∧ (finishStep^[items.length]) (startBatch items)
        = ⟨[], [], false, items⟩ := by
  have hinv : ∀ n, SchedInv items ((finishStep^[n]) (startBatch items)) := by
    intro n
    induction n with
    | zero => simpa using inv_startBatch items
    | succ m ih =>
      rw [Function.iterate_succ_apply']
      exact inv_finishStep ih
  refine ⟨(hinv k).2.1, (hinv k).1, ?_⟩
  cases items with
  | nil => rfl
  | cons h t =>
    have hsb : startBatch (h :: t) = ⟨t, [h], true, []⟩ := by
      rw [startBatch, List.foldl_cons]
      have h0 : enqueueOne (⟨[], [], false, []⟩ : SchedState α) h
          = ⟨[], [h], true, []⟩ := rfl
      rw [h0]
      simpa using foldl_enqueue_busy t [] [h] []
    rw [hsb, show (h :: t).length = t.length + 1 from rfl, drain_busy t h []]
    simp
